import Mathlib

/-!
Verification of the jamovi computed-column formula engine
(`server/jamovi/server/compute/nodes.py`) against its specification.

The Python AST node classes are shallowly embedded as a Lean inductive
`Expr` with an evaluator `eval` returning `Except Err Value`; Python
exceptions become `Err` values.  Machine floats are modelled as
`Option ℚ` with `none` playing the role of NaN (the decimal missing
sentinel); no claim below depends on float rounding.  The helpers
`is_missing`, `get_missing` and `convert` live in `server/utils`
(outside the excerpt) and are modelled from the spec, as are the
column/value-source leaf nodes.

The `index`, `row_count` and `filt` parameters threaded through
`fvalue` in the source are omitted from `eval`: no embedded operation
consults them (the `OFFSET` special case is outside the claims), and
"the value of an operand at the current row" is represented by the
value carried by a `src` leaf, which the theorems quantify over.
-/

/-- Data types of the engine (`jamovi.core.DataType`). -/
inductive DataType where
  | integer
  | decimal
  | text
deriving DecidableEq, Repr

/-- Measure types of the engine (`jamovi.core.MeasureType`).
`id` is the identifier measure (`MeasureType.ID`). -/
inductive MeasureType where
  | continuous
  | ordinal
  | nominal
  | id
deriving DecidableEq, Repr

/-- Runtime values flowing through `fvalue`: Python ints, floats
(`Option ℚ`, `none` = NaN), strings, and labelled-id tuples
`(code, label)`. -/
inductive Value where
  | int (n : Int)
  | dec (q : Option ℚ)
  | str (s : String)
  | pair (code : Int) (label : String)
deriving DecidableEq, Repr

/-- Python exceptions raised during evaluation. -/
inductive Err where
  | runtime
  | typeErr
  | valueErr
  | zeroDiv
  | indexErr
deriving DecidableEq, Repr

/-- The value domains used as `convert` targets in the source:
`int`, `float`, `str`, or `None` (no annotation / untyped). -/
inductive PyType where
  | noneT
  | int
  | float
  | str
deriving DecidableEq, Repr

/-- Modelled from the spec: "integer domain uses a reserved minimum
integer" as its missing sentinel. -/
def intMissing : Int := -2147483648

/-- Modelled from the spec: `is_missing(value) -> bool` from
`server/utils` — the reserved minimum integer, NaN, and the empty
string are the missing sentinels of their domains; labelled-id tuples
carry a real code and are not missing. -/
def is_missing : Value → Bool
  | .int n => n == intMissing
  | .dec q => q.isNone
  | .str s => s == ""
  | .pair _ _ => false

/-- Modelled from the spec: `missing_of(domain)` (`get_missing` in the
source) returns the domain's missing sentinel.  The source's
zero-argument `get_missing()` is rendered as `get_missing .float`
(NaN), matching the spec's decimal sentinel for degenerate arithmetic. -/
def get_missing : PyType → Value
  | .noneT => .dec none
  | .int => .int intMissing
  | .float => .dec none
  | .str => .str ""

/-- Python `int(q)` truncates toward zero. -/
def pyTrunc (q : ℚ) : Int :=
  if 0 ≤ q then Int.floor q else Int.ceil q

/-- Modelled from the spec: numeric text is coerced best-effort;
only integer numerals are modelled, anything else falls back to the
missing sentinel. -/
def ratOfString (s : String) : Option ℚ :=
  (s.toInt?).map (fun n => (n : ℚ))

/-- Modelled from the spec: `convert(value, target_domain)` from
`server/utils` — total best-effort coercion between the integer,
decimal, text and labelled-id domains, round-tripping missing
sentinels; values that cannot convert become the target domain's
missing sentinel; a `None` target leaves the value unchanged. -/
def convert (v : Value) : PyType → Value
  | .noneT => v
  | .int =>
    .int (match v with
      | .int n => n
      | .dec none => intMissing
      | .dec (some q) => pyTrunc q
      | .str s => if s = "" then intMissing else s.toInt?.getD intMissing
      | .pair c _ => c)
  | .float =>
    .dec (match v with
      | .int n => if n = intMissing then none else some (n : ℚ)
      | .dec q => q
      | .str s => if s = "" then none else ratOfString s
      | .pair c _ => some (c : ℚ))
  | .str =>
    .str (match v with
      | .int n => if n = intMissing then "" else toString n
      | .dec none => ""
      | .dec (some q) => toString q
      | .str s => s
      | .pair _ l => l)

/-- Python truthiness of an engine value (`if not value`). -/
def pyTruthy : Value → Bool
  | .int n => n != 0
  | .dec none => true
  | .dec (some q) => q != 0
  | .str s => s != ""
  | .pair _ _ => true

/-- `value = value[0]`: unwrap a labelled tuple to its numeric code. -/
def unwrapPair : Value → Value
  | .pair c _ => .int c
  | v => v

/-- Python `ast` unary operator kinds (all four exist in `ast.unaryop`). -/
inductive UOp where
  | usub
  | uadd
  | notOp
  | invert
deriving DecidableEq, Repr

/-- Python `ast` boolean operator kinds (`ast.boolop` is exactly And/Or). -/
inductive BoolK where
  | andOp
  | orOp
deriving DecidableEq, Repr

/-- Python `ast` binary operator kinds (`ast.operator`).  The kinds
after `bitXor` are outside the set `BinOp.fvalue` dispatches on. -/
inductive BOp where
  | add
  | sub
  | mult
  | div
  | mod
  | pow
  | bitXor
  | lshift
  | rshift
  | bitOr
  | bitAnd
  | floorDiv
  | matMult
deriving DecidableEq, Repr

/-- Python `ast` comparison operator kinds (`ast.cmpop`).  The kinds
after `notEq` are outside the set `Compare._test` dispatches on. -/
inductive CmpOp where
  | lt
  | gt
  | gtE
  | ltE
  | eq
  | notEq
  | isOp
  | isNot
  | inOp
  | notIn
deriving DecidableEq, Repr

/-- The AST node family of `nodes.py`.  `num`/`numDec` are `Num` with an
integral resp. floating literal, `strE` is `Str`; `src` is the
column/value-source leaf node, modelled from the spec ("value_at(row)
returns a scalar" with declared data and measure types) — it stands for
any subtree and carries the value it yields at the row under
consideration. -/
inductive Expr where
  | num (n : Int)
  | numDec (q : ℚ)
  | strE (s : String)
  | src (v : Value) (dt : DataType) (mt : MeasureType)
  | unary (op : UOp) (operand : Expr)
  | boolOp (op : BoolK) (values : List Expr)
  | binOp (left : Expr) (op : BOp) (right : Expr)
  | compare (left : Expr) (ops : List CmpOp) (comparators : List Expr)

/-- `data_type` of each node class in `nodes.py`. -/
def Expr.data_type : Expr → DataType
  | .num _ => .integer
  | .numDec _ => .decimal
  | .strE _ => .text
  | .src _ dt _ => dt
  | .unary op e =>
    match op with
    | .uadd => if e.data_type = .text then .decimal else e.data_type
    | .notOp => .integer
    | _ => e.data_type
  | .boolOp _ _ => .integer
  | .binOp l op r =>
    if op = .pow then .decimal
    else
      let ldt := l.data_type
      let rdt := r.data_type
      if ldt = .text ∨ rdt = .text then .text
      else if ldt = .decimal ∨ rdt = .decimal then .decimal
      else .integer
  | .compare _ _ _ => .integer

/-- `measure_type` of each node class in `nodes.py`. -/
def Expr.measure_type : Expr → MeasureType
  | .num _ => .ordinal
  | .numDec _ => .continuous
  | .strE _ => .nominal
  | .src _ _ mt => mt
  | .unary op e =>
    match op with
    | .uadd => if e.data_type = .text then .continuous else e.measure_type
    | .notOp => .nominal
    | _ => e.measure_type
  | .boolOp _ _ => .nominal
  | .binOp l op r =>
    if op = .pow then .continuous
    else
      let lmt := l.measure_type
      let rmt := r.measure_type
      let dt := (Expr.binOp l op r).data_type
      if (lmt = .id ∨ rmt = .id) ∧ dt = .text then .id
      else if (lmt = .continuous ∨ rmt = .continuous) ∧ dt ≠ .text then .continuous
      else if lmt = .nominal ∨ rmt = .nominal then .nominal
      else .ordinal
  | .compare _ _ _ => .nominal

/-- `BinOp.fvalue` lines 482-487: the unifying value domain drawn from
the node's result data type. -/
def ul_type_of : DataType → PyType
  | .decimal => .float
  | .text => .str
  | .integer => .int

/-- `UnaryOp.fvalue` lines 123-152, applied to the operand's value.
Python exceptions (TypeError on negating text, ValueError on
`float(text)` with non-numeric text) become `Err` values. -/
def unaryApply (op : UOp) (v : Value) : Except Err Value :=
  match op with
  | .usub =>
    if is_missing v then .ok v
    else
      match unwrapPair v with
      | .int n => .ok (.int (-n))
      | .dec q => .ok (.dec (q.map (fun x => -x)))
      | _ => .error .typeErr
  | .uadd =>
    if is_missing v then .ok v
    else
      match v with
      | .pair c _ => .ok (.int c)
      | .str s =>
        match ratOfString s with
        | some q => .ok (.dec (some q))
        | none => .error .valueErr
      | w => .ok w
  | .notOp =>
    if is_missing v then .ok v
    else .ok (.int (if pyTruthy (unwrapPair v) then 0 else 1))
  | .invert =>
    if is_missing v then .ok (.int 0)
    else .ok v

/-- Python float addition on `Option ℚ` (NaN propagates). -/
def decAdd : Option ℚ → Option ℚ → Option ℚ
  | some a, some b => some (a + b)
  | _, _ => none

/-- Python float subtraction on `Option ℚ` (NaN propagates). -/
def decSub : Option ℚ → Option ℚ → Option ℚ
  | some a, some b => some (a - b)
  | _, _ => none

/-- Python float multiplication on `Option ℚ` (NaN propagates). -/
def decMul : Option ℚ → Option ℚ → Option ℚ
  | some a, some b => some (a * b)
  | _, _ => none

/-- Python floored modulus on rationals (`a - b * floor(a / b)`). -/
def ratFMod (a b : ℚ) : ℚ := a - b * (Int.floor (a / b) : ℚ)

/-- Python `**` on ints: non-negative exponents stay integral,
negative exponents produce floats, `0 ** negative` raises
ZeroDivisionError. -/
def intPow (a e : Int) : Except Err Value :=
  if 0 ≤ e then .ok (.int (a ^ e.toNat))
  else if a = 0 then .error .zeroDiv
  else .ok (.dec (some ((a : ℚ) ^ e)))

/-- Python `**` on floats, modelled on ℚ: integral exponents are
exact; fractional exponents leave ℚ (irrational or complex results)
and are modelled as NaN, which no claim depends on.  `0.0 ** negative`
raises ZeroDivisionError; NaN operands propagate. -/
def decPow : Option ℚ → Option ℚ → Except Err Value
  | some a, some b =>
    if b.den = 1 then
      if a = 0 ∧ b.num < 0 then .error .zeroDiv
      else .ok (.dec (some (a ^ b.num)))
    else .ok (.dec none)
  | _, _ => .ok (.dec none)

/-- `BinOp.fvalue` lines 509-527: operator dispatch on the converted
operands.  `convert` lands both operands in the same domain, so only
same-domain cases are reachable from `binOpApply`; the catch-alls
record Python's TypeError on the unreachable mixed combinations.
Division by zero is caught and yields `get_missing()`; modulus by zero
is uncaught; operator kinds outside the dispatched set fall through to
`return get_missing()` (line 527). -/
def binDispatch (op : BOp) (lv rv : Value) : Except Err Value :=
  match op with
  | .add =>
    match lv, rv with
    | .int a, .int b => .ok (.int (a + b))
    | .dec a, .dec b => .ok (.dec (decAdd a b))
    | .str a, .str b => .ok (.str (a ++ b))
    | _, _ => .error .typeErr
  | .sub =>
    match lv, rv with
    | .int a, .int b => .ok (.int (a - b))
    | .dec a, .dec b => .ok (.dec (decSub a b))
    | _, _ => .error .typeErr
  | .mult =>
    match lv, rv with
    | .int a, .int b => .ok (.int (a * b))
    | .dec a, .dec b => .ok (.dec (decMul a b))
    | _, _ => .error .typeErr
  | .div =>
    match lv, rv with
    | .int a, .int b =>
      if b = 0 then .ok (get_missing .float)
      else .ok (.dec (some ((a : ℚ) / (b : ℚ))))
    | .dec a, .dec (some b0) =>
      if b0 = 0 then .ok (get_missing .float)
      else .ok (.dec (a.map (fun x => x / b0)))
    | .dec _, .dec none => .ok (.dec none)
    | _, _ => .error .typeErr
  | .mod =>
    match lv, rv with
    | .int a, .int b =>
      if b = 0 then .error .zeroDiv else .ok (.int (Int.fmod a b))
    | .dec a, .dec (some b0) =>
      if b0 = 0 then .error .zeroDiv
      else .ok (.dec (a.map (fun x => ratFMod x b0)))
    | .dec _, .dec none => .ok (.dec none)
    | _, _ => .error .typeErr
  | .pow =>
    match lv, rv with
    | .int a, .int b => intPow a b
    | .dec a, .dec b => decPow a b
    | _, _ => .error .typeErr
  | .bitXor =>
    match lv, rv with
    | .int a, .int b => intPow a b
    | .dec a, .dec b => decPow a b
    | _, _ => .error .typeErr
  | _ => .ok (get_missing .float)

/-- `BinOp.fvalue` lines 475-527 applied to the operand values: pick
the unifying domain from the node's result data type, convert both
operands, skip the missing-ness check exactly for text-domain `+`,
return the integer missing sentinel when an operand is missing, and
otherwise dispatch on the operator. -/
def binOpApply (op : BOp) (dt : DataType) (lv0 rv0 : Value) : Except Err Value :=
  let ul := ul_type_of dt
  let lv := convert lv0 ul
  let rv := convert rv0 ul
  if ¬(ul = PyType.str ∧ op = BOp.add) ∧ (is_missing lv || is_missing rv) then
    .ok (get_missing .int)
  else
    binDispatch op lv rv

/-- True when the value is a Python string. -/
def Value.isStr : Value → Bool
  | .str _ => true
  | _ => false

/-- True when the value is a Python float. -/
def Value.isFloat : Value → Bool
  | .dec _ => true
  | _ => false

/-- `Compare._test` lines 608-614: labelled tuples compare by code
when both sides are tuples; a tuple against a plain value contributes
its label when the other side is text, its code otherwise. -/
def cmpPrep (v1 v2 : Value) : Value × Value :=
  match v1, v2 with
  | .pair _ _, .pair _ _ => (convert v1 .int, convert v2 .int)
  | .pair c l, _ => (if v2.isStr then .str l else .int c, v2)
  | _, .pair c l => (v1, if v1.isStr then .str l else .int c)
  | _, _ => (v1, v2)

/-- Ordering of two unwrapped values under Python's `<` family:
numeric across int/float (`none` when NaN is involved — all four
order tests are false on NaN), lexicographic on strings, TypeError
across kinds. -/
def pyOrder : Value → Value → Except Err (Option Ordering)
  | .int a, .int b => .ok (some (compare a b))
  | .int a, .dec b => .ok (b.map (fun q => compare (a : ℚ) q))
  | .dec a, .int b => .ok (a.map (fun q => compare q (b : ℚ)))
  | .dec a, .dec b =>
    .ok (match a, b with
      | some x, some y => some (compare x y)
      | _, _ => none)
  | .str a, .str b => .ok (some (compare a b))
  | _, _ => .error .typeErr

/-- `float(v)` as used by `Compare._test`: ints and floats pass
through, strings parse or raise ValueError. -/
def pyFloat : Value → Except Err (Option ℚ)
  | .int a => .ok (some (a : ℚ))
  | .dec q => .ok q
  | .str s =>
    match ratOfString s with
    | some q => .ok (some q)
    | none => .error .valueErr
  | .pair _ _ => .error .typeErr

/-- `math.isclose` with its default tolerances, on the rational model:
`|a - b| ≤ 1e-9 * max(|a|, |b|)`; NaN is close to nothing. -/
def ratIsClose : Option ℚ → Option ℚ → Bool
  | some a, some b => decide (|a - b| ≤ (1 / 1000000000) * max |a| |b|)
  | _, _ => false

/-- Python `==` on unwrapped values as `Compare._test` uses it:
tolerance-based once either side is a float, exact (and `False`
across kinds, without error) otherwise. -/
def pyEqTest (v1 v2 : Value) : Except Err Bool :=
  if v1.isFloat || v2.isFloat then do
    let a ← pyFloat v1
    let b ← pyFloat v2
    .ok (ratIsClose a b)
  else
    .ok (decide (v1 = v2))

/-- `Compare._test` lines 605-635: unwrap labelled tuples, then
dispatch on the comparison operator; kinds outside the dispatched set
hit the `raise RuntimeError` fallback. -/
def cmpTest (v1 : Value) (op : CmpOp) (v2 : Value) : Except Err Bool :=
  let p := cmpPrep v1 v2
  match op with
  | .lt => do
    let o ← pyOrder p.1 p.2
    .ok (o == some Ordering.lt)
  | .gt => do
    let o ← pyOrder p.1 p.2
    .ok (o == some Ordering.gt)
  | .gtE => do
    let o ← pyOrder p.1 p.2
    .ok (o == some Ordering.gt || o == some Ordering.eq)
  | .ltE => do
    let o ← pyOrder p.1 p.2
    .ok (o == some Ordering.lt || o == some Ordering.eq)
  | .eq => pyEqTest p.1 p.2
  | .notEq => do
    let b ← pyEqTest p.1 p.2
    .ok (!b)
  | _ => .error .runtime

mutual

/-- `fvalue` of the node family, one equation per node class:
literals yield their payload, `src` leaves yield the row's value,
`UnaryOp`/`BinOp` evaluate operands then apply, `BoolOp` runs the
tri-state short-circuit scans, `Compare` runs the chained pairwise
loop (lines 591-603). -/
def eval : Expr → Except Err Value
  | .num n => .ok (.int n)
  | .numDec q => .ok (.dec (some q))
  | .strE s => .ok (.str s)
  | .src v _ _ => .ok v
  | .unary op e => do
    let v ← eval e
    unaryApply op v
  | .boolOp .andOp vs => evalAnd (.int 1) vs
  | .boolOp .orOp vs => evalOr (.int 0) vs
  | .binOp l op r => do
    let lv ← eval l
    let rv ← eval r
    binOpApply op (Expr.binOp l op r).data_type lv rv
  | .compare l ops comps => do
    let v1 ← eval l
    if is_missing v1 then pure (get_missing PyType.int)
    else compareLoop v1 ops comps

/-- `BoolOp.fvalue` AND scan (lines 201-212): `carry` starts at 1;
a missing operand replaces the carry and scanning continues; a falsy
evaluated operand returns 0 at once; otherwise the carry is returned. -/
def evalAnd (carry : Value) : List Expr → Except Err Value
  | [] => .ok carry
  | v :: rest => do
    let value ← eval v
    if is_missing value then evalAnd value rest
    else if pyTruthy (unwrapPair value) then evalAnd carry rest
    else pure (Value.int 0)

/-- `BoolOp.fvalue` OR scan (lines 213-224): `carry` starts at 0;
a missing operand replaces the carry and scanning continues; a truthy
evaluated operand returns 1 at once; otherwise the carry is returned. -/
def evalOr (carry : Value) : List Expr → Except Err Value
  | [] => .ok carry
  | v :: rest => do
    let value ← eval v
    if is_missing value then evalOr value rest
    else if pyTruthy (unwrapPair value) then pure (Value.int 1)
    else evalOr carry rest

/-- `Compare.fvalue` loop (lines 595-603): for each adjacent pair,
evaluate the right operand; missing yields the integer missing
sentinel at once, a failing test yields 0 at once, otherwise the
right value becomes the left of the next pair; 1 when all pairs pass.
An operator without a matching comparator is the source's IndexError. -/
def compareLoop (v1 : Value) : List CmpOp → List Expr → Except Err Value
  | [], _ => .ok (.int 1)
  | _ :: _, [] => .error .indexErr
  | op :: ops, c :: comps => do
    let v2 ← eval c
    if is_missing v2 then pure (get_missing PyType.int)
    else do
      let b ← cmpTest v1 op v2
      if b then compareLoop v2 ops comps else pure (Value.int 0)

end

/-- The string payload of a text value (empty for non-text). -/
def str_of : Value → String
  | .str s => s
  | _ => ""

theorem eval_binOp_ok {l r : Expr} {op : BOp} {lv rv : Value}
    (h1 : eval l = .ok lv) (h2 : eval r = .ok rv) :
    eval (.binOp l op r) = binOpApply op (Expr.binOp l op r).data_type lv rv := by
  simp only [eval, h1, h2]
  rfl

theorem binOpApply_missing {op : BOp} {dt : DataType} {lv rv : Value}
    (hna : ¬(ul_type_of dt = PyType.str ∧ op = BOp.add))
    (hm : (is_missing (convert lv (ul_type_of dt)) || is_missing (convert rv (ul_type_of dt))) = true) :
    binOpApply op dt lv rv = .ok (get_missing PyType.int) := by
  unfold binOpApply
  simp only [hna, hm]
  simp

/-- Claim C1: for every binary arithmetic operation, if either operand,
after conversion into the unified result domain, is missing, the result
is missing — except that in the text domain the operator `+` skips the
missing-ness check and performs string concatenation. -/
theorem claim_C1 (op : BOp) (l r : Expr) (lv rv : Value)
    (hop : op ∈ ([.add, .sub, .mult, .div, .mod, .pow, .bitXor] : List BOp))
    (h1 : eval l = .ok lv) (h2 : eval r = .ok rv)
    (hm : (is_missing (convert lv (ul_type_of (Expr.binOp l op r).data_type)) ||
           is_missing (convert rv (ul_type_of (Expr.binOp l op r).data_type))) = true) :
    (¬(ul_type_of (Expr.binOp l op r).data_type = PyType.str ∧ op = BOp.add) →
      ∃ m, eval (.binOp l op r) = .ok m ∧ is_missing m = true) ∧
    ((ul_type_of (Expr.binOp l op r).data_type = PyType.str ∧ op = BOp.add) →
      eval (.binOp l op r) =
        .ok (.str (str_of (convert lv PyType.str) ++ str_of (convert rv PyType.str)))) := by
  clear hop
  rw [eval_binOp_ok h1 h2]
  constructor
  · intro hna
    exact ⟨get_missing PyType.int, binOpApply_missing hna hm, rfl⟩
  · rintro ⟨hul, hadd⟩
    subst hadd
    unfold binOpApply
    rw [hul]
    simp only [true_and, not_true_eq_false, false_and, if_false]
    rfl

/-- Witness for C1 at `1 - NaN` (decimal domain, right operand missing). -/
theorem claim_C1_witness :
    ∃ m, eval (.binOp (.num 1) .sub (.src (.dec none) .decimal .continuous)) = .ok m ∧
      is_missing m = true := by
  have h := claim_C1 .sub (.num 1) (.src (.dec none) .decimal .continuous)
    (.int 1) (.dec none) (by simp) (by simp only [eval]) (by simp only [eval])
    (by simp [Expr.data_type, ul_type_of, convert, is_missing])
  exact h.1 (by simp [Expr.data_type, ul_type_of])

/-- Claim C10: whenever a binary arithmetic node propagates
missing-ness (either converted operand missing, outside the
text-domain `+` case), the value returned is the integer-domain
missing sentinel, whatever the unified domain was. -/
theorem claim_C10 (op : BOp) (l r : Expr) (lv rv : Value)
    (h1 : eval l = .ok lv) (h2 : eval r = .ok rv)
    (hna : ¬(ul_type_of (Expr.binOp l op r).data_type = PyType.str ∧ op = BOp.add))
    (hm : (is_missing (convert lv (ul_type_of (Expr.binOp l op r).data_type)) ||
           is_missing (convert rv (ul_type_of (Expr.binOp l op r).data_type))) = true) :
    eval (.binOp l op r) = .ok (get_missing PyType.int) := by
  rw [eval_binOp_ok h1 h2]
  exact binOpApply_missing hna hm

/-- Witness for C10 at `"a" * NaN`: the unified domain is text, yet the
propagated missing value is the integer sentinel. -/
theorem claim_C10_witness :
    eval (.binOp (.strE "a") .mult (.src (.dec none) .decimal .continuous)) =
      .ok (get_missing PyType.int) := by
  exact claim_C10 .mult (.strE "a") (.src (.dec none) .decimal .continuous)
    (.str "a") (.dec none) (by simp only [eval]) (by simp only [eval])
    (by simp [Expr.data_type, ul_type_of]) (by simp [Expr.data_type, ul_type_of, convert, is_missing])

/-- Claim C5 fails on the code: a power node written with the
bitwise-xor symbol evaluates as power (`2 ^ 3 = 8`) but its data type
is derived from the operands — integer here, not decimal, and ordinal
measure, not continuous. -/
theorem claim_C5_counterexample :
    eval (.binOp (.num 2) .bitXor (.num 3)) = .ok (.int 8) ∧
    (Expr.binOp (.num 2) .bitXor (.num 3)).data_type = DataType.integer ∧
    (Expr.binOp (.num 2) .bitXor (.num 3)).measure_type = MeasureType.ordinal ∧
    DataType.integer ≠ DataType.decimal := by
  refine ⟨?_, by simp [Expr.data_type], by simp [Expr.measure_type, Expr.data_type], by simp⟩
  simp only [eval]
  rfl

/-- Claim C5 as amended: a binary node whose operator is the power
operator has decimal data type and continuous measure type regardless
of its operands; a bitwise-xor node derives both from its operands
like the other non-power operators. -/
theorem claim_C5_amended (l r : Expr) :
    (Expr.binOp l .pow r).data_type = DataType.decimal ∧
    (Expr.binOp l .pow r).measure_type = MeasureType.continuous ∧
    (Expr.binOp l .bitXor r).data_type = (Expr.binOp l .sub r).data_type ∧
    (Expr.binOp l .bitXor r).measure_type = (Expr.binOp l .sub r).measure_type := by
  refine ⟨by simp [Expr.data_type], by simp [Expr.measure_type], ?_, ?_⟩
  · simp [Expr.data_type]
  · simp [Expr.measure_type, Expr.data_type]

/-- Claim C9 fails on the code: a binary node evaluated with an
operator kind outside its supported set (here left-shift) returns the
missing sentinel as an ordinary value instead of raising a fatal
error. -/
theorem claim_C9_counterexample :
    eval (.binOp (.num 1) .lshift (.num 2)) = .ok (.dec none) ∧
    is_missing (.dec none) = true := by
  constructor
  · simp only [eval]
    rfl
  · rfl

/-- Claim C9 as amended: the unary and boolean nodes support every
operator kind the Python `ast` defines for them, so their fatal-error
fallbacks are unreachable; a binary node evaluated with an operator
kind outside its supported set produces the missing sentinel value
rather than an error. -/
theorem claim_C9_amended (op : BOp) (l r : Expr) (lv rv : Value)
    (hop : op ∈ ([.lshift, .rshift, .bitOr, .bitAnd, .floorDiv, .matMult] : List BOp))
    (h1 : eval l = .ok lv) (h2 : eval r = .ok rv) :
    (∃ m, eval (.binOp l op r) = .ok m ∧ is_missing m = true) ∧
    (∀ (uop : UOp) (v : Value), unaryApply uop v ≠ .error Err.runtime) := by
  constructor
  · rw [eval_binOp_ok h1 h2]
    simp only [binOpApply]
    split
    · exact ⟨get_missing PyType.int, rfl, rfl⟩
    · refine ⟨get_missing PyType.float, ?_, rfl⟩
      fin_cases hop <;> rfl
  · intro uop v
    cases uop <;> cases v <;>
      simp only [unaryApply, unwrapPair] <;>
      (repeat' split) <;> simp

theorem do_ok {α β : Type} {g : Except Err α} {w : α} {f : α → Except Err β}
    (h : g = .ok w) : (do let v ← g; f v) = f w := by
  rw [h]
  rfl

/-- Claim C3's amended contract for a comparator chain, written over
the operand values: scanning left to right, a missing operand
encountered before any failing test yields the integer missing
sentinel at once; the first failing test yields 0 at once, leaving
everything to its right unexamined; 1 when every pair passes. -/
def chainWalk (v1 : Value) : List (CmpOp × Value) → Except Err Value
  | [] => .ok (.int 1)
  | (op, v2) :: rest =>
    if is_missing v2 then .ok (get_missing PyType.int)
    else
      match cmpTest v1 op v2 with
      | .error e => .error e
      | .ok b => if b then chainWalk v2 rest else .ok (.int 0)

/-- The full amended comparator contract: a missing left operand
yields the missing sentinel before any pair is examined. -/
def chainSpec (v1 : Value) (ps : List (CmpOp × Value)) : Except Err Value :=
  if is_missing v1 then .ok (get_missing PyType.int) else chainWalk v1 ps

theorem compareLoop_eq_chainWalk {comps : List Expr} {vs : List Value}
    (h : List.Forall₂ (fun c v => eval c = .ok v) comps vs) :
    ∀ (ops : List CmpOp) (v1 : Value), ops.length ≤ comps.length →
      compareLoop v1 ops comps = chainWalk v1 (ops.zip vs) := by
  induction h with
  | nil =>
    intro ops v1 hlen
    cases ops with
    | nil => simp [compareLoop, chainWalk]
    | cons _ _ => simp at hlen
  | @cons c v cs vs' h1 h2 ih =>
    intro ops v1 hlen
    cases ops with
    | nil => simp [compareLoop, chainWalk]
    | cons op ops' =>
      simp only [compareLoop, List.zip_cons_cons, chainWalk]
      rw [do_ok h1]
      by_cases hm : is_missing v
      · rw [if_pos hm, if_pos hm]
        rfl
      · rw [if_neg hm, if_neg hm]
        cases cmpTest v1 op v with
        | error e => rfl
        | ok b =>
          cases b with
          | true =>
            show compareLoop v ops' cs = chainWalk v (ops'.zip vs')
            exact ih ops' v (by simpa using hlen)
          | false => rfl

/-- Claim C3 fails on the code: in `2 < 1 < MISSING` the first pair
already fails, so the chain short-circuits to 0 and never looks at the
missing third operand — the result is 0, not the missing sentinel the
claim requires for a chain containing a missing operand. -/
theorem claim_C3_counterexample :
    eval (.compare (.num 2) [.lt, .lt] [.num 1, .src (.int intMissing) .integer .ordinal]) =
      .ok (.int 0) ∧
    is_missing (Value.int intMissing) = true ∧
    Value.int 0 ≠ get_missing PyType.int := by
  refine ⟨?_, rfl, by simp [get_missing, intMissing]⟩
  simp only [eval, compareLoop]
  rfl

/-- Claim C3 as amended: a chain `a1 op1 a2 op2 ...` evaluates exactly
as the left-to-right walk over its operand values — the missing
sentinel as soon as a missing operand is reached, 0 as soon as a pair
fails (later operands, missing or not, are never examined), and 1 when
every pair passes. -/
theorem claim_C3_amended (l : Expr) (ops : List CmpOp) (comps : List Expr)
    (v1 : Value) (vs : List Value)
    (h1 : eval l = .ok v1)
    (h2 : List.Forall₂ (fun c v => eval c = .ok v) comps vs)
    (hlen : ops.length ≤ comps.length) :
    eval (.compare l ops comps) = chainSpec v1 (ops.zip vs) := by
  simp only [eval]
  rw [do_ok h1]
  unfold chainSpec
  by_cases hm : is_missing v1
  · rw [if_pos hm, if_pos hm]
    rfl
  · rw [if_neg hm, if_neg hm]
    exact compareLoop_eq_chainWalk h2 ops v1 hlen

/-- Witness for the amended C3 at `1 < 2 < 3`, whose chain walk yields 1. -/
theorem claim_C3_witness :
    eval (.compare (.num 1) [.lt, .lt] [.num 2, .num 3]) =
      chainSpec (.int 1) [(.lt, .int 2), (.lt, .int 3)] ∧
    chainSpec (.int 1) [(.lt, .int 2), (.lt, .int 3)] = .ok (.int 1) := by
  constructor
  · exact claim_C3_amended (.num 1) [.lt, .lt] [.num 2, .num 3] (.int 1) [.int 2, .int 3]
      (by simp only [eval])
      (by refine List.Forall₂.cons ?_ (List.Forall₂.cons ?_ List.Forall₂.nil) <;> simp only [eval])
      (by simp)
  · rfl

/-- The last-seen missing value of an operand scan, if any. -/
def lastMissing : List Value → Option Value
  | [] => none
  | v :: rest =>
    match lastMissing rest with
    | some m => some m
    | none => if is_missing v then some v else none

/-- An operand value that is non-missing and falsy after tuple
unwrapping: the kind that makes AND short-circuit to 0. -/
def isFalsy (v : Value) : Bool := !is_missing v && !pyTruthy (unwrapPair v)

/-- An operand value that is non-missing and truthy after tuple
unwrapping: the kind that makes OR short-circuit to 1. -/
def isTruthy (v : Value) : Bool := !is_missing v && pyTruthy (unwrapPair v)

theorem evalAnd_eq {es : List Expr} {ws : List Value}
    (h : List.Forall₂ (fun e w => eval e = .ok w) es ws) :
    ∀ carry : Value,
      evalAnd carry es =
        .ok (if ws.any isFalsy then .int 0 else (lastMissing ws).getD carry) := by
  induction h with
  | nil => intro carry; simp [evalAnd, lastMissing]
  | @cons e w es' ws' h1 h2 ih =>
    intro carry
    simp only [evalAnd]
    rw [do_ok h1]
    by_cases hm : is_missing w
    · rw [if_pos hm, ih w]
      have hf : isFalsy w = false := by simp [isFalsy, hm]
      simp only [List.any_cons, hf, Bool.false_or]
      by_cases ha : ws'.any isFalsy
      · simp [ha]
      · simp only [ha, if_false, Bool.false_eq_true, Except.ok.injEq]
        simp only [lastMissing]
        cases hl : lastMissing ws' with
        | some m => simp
        | none => simp [hm]
    · rw [if_neg hm]
      by_cases ht : pyTruthy (unwrapPair w)
      · rw [if_pos ht, ih carry]
        have hf : isFalsy w = false := by simp [isFalsy, ht]
        simp only [List.any_cons, hf, Bool.false_or]
        by_cases ha : ws'.any isFalsy
        · simp [ha]
        · simp only [ha, if_false, Bool.false_eq_true, Except.ok.injEq]
          simp only [lastMissing]
          cases hl : lastMissing ws' with
          | some m => simp
          | none => simp [hm]
      · rw [if_neg ht]
        have hf : isFalsy w = true := by simp [isFalsy, hm, ht]
        simp only [List.any_cons, hf, Bool.true_or, if_true]
        rfl

theorem evalOr_eq {es : List Expr} {ws : List Value}
    (h : List.Forall₂ (fun e w => eval e = .ok w) es ws) :
    ∀ carry : Value,
      evalOr carry es =
        .ok (if ws.any isTruthy then .int 1 else (lastMissing ws).getD carry) := by
  induction h with
  | nil => intro carry; simp [evalOr, lastMissing]
  | @cons e w es' ws' h1 h2 ih =>
    intro carry
    simp only [evalOr]
    rw [do_ok h1]
    by_cases hm : is_missing w
    · rw [if_pos hm, ih w]
      have hf : isTruthy w = false := by simp [isTruthy, hm]
      simp only [List.any_cons, hf, Bool.false_or]
      by_cases ha : ws'.any isTruthy
      · simp [ha]
      · simp only [ha, if_false, Bool.false_eq_true, Except.ok.injEq]
        simp only [lastMissing]
        cases hl : lastMissing ws' with
        | some m => simp
        | none => simp [hm]
    · rw [if_neg hm]
      by_cases ht : pyTruthy (unwrapPair w)
      · rw [if_pos ht]
        have hf : isTruthy w = true := by simp [isTruthy, hm, ht]
        simp only [List.any_cons, hf, Bool.true_or, if_true]
        rfl
      · rw [if_neg ht, ih carry]
        have hf : isTruthy w = false := by simp [isTruthy, ht]
        simp only [List.any_cons, hf, Bool.false_or]
        by_cases ha : ws'.any isTruthy
        · simp [ha]
        · simp only [ha, if_false, Bool.false_eq_true, Except.ok.injEq]
          simp only [lastMissing]
          cases hl : lastMissing ws' with
          | some m => simp
          | none => simp [hm]

theorem evalAnd_short {pre : List Expr} {ws_pre : List Value}
    (hpre : List.Forall₂ (fun e w => eval e = .ok w) pre ws_pre)
    (hok : ∀ w ∈ ws_pre, isFalsy w = false)
    {e : Expr} {v : Value} (he : eval e = .ok v) (hv : isFalsy v = true) :
    ∀ (suffix : List Expr) (carry : Value),
      evalAnd carry (pre ++ e :: suffix) = .ok (.int 0) := by
  induction hpre with
  | nil =>
    intro suffix carry
    simp only [List.nil_append, evalAnd]
    rw [do_ok he]
    have hm : is_missing v = false := by
      rcases Bool.and_eq_true_iff.mp hv with ⟨h1, _⟩
      simpa using h1
    have ht : pyTruthy (unwrapPair v) = false := by
      rcases Bool.and_eq_true_iff.mp hv with ⟨_, h2⟩
      simpa using h2
    rw [if_neg (by simp [hm]), if_neg (by simp [ht])]
    rfl
  | @cons p w pre' ws' h1 h2 ih =>
    intro suffix carry
    have hw : isFalsy w = false := hok w (List.mem_cons_self w ws')
    have ihp := ih (fun u hu => hok u (List.mem_cons_of_mem w hu))
    simp only [List.cons_append, evalAnd]
    rw [do_ok h1]
    by_cases hm : is_missing w
    · rw [if_pos hm]
      exact ihp suffix w
    · rw [if_neg hm]
      have ht : pyTruthy (unwrapPair w) = true := by
        have := hw
        simp only [isFalsy, hm, Bool.not_false, Bool.true_and] at this
        simpa using this
      rw [if_pos ht]
      exact ihp suffix carry

theorem evalOr_short {pre : List Expr} {ws_pre : List Value}
    (hpre : List.Forall₂ (fun e w => eval e = .ok w) pre ws_pre)
    (hok : ∀ w ∈ ws_pre, isTruthy w = false)
    {e : Expr} {v : Value} (he : eval e = .ok v) (hv : isTruthy v = true) :
    ∀ (suffix : List Expr) (carry : Value),
      evalOr carry (pre ++ e :: suffix) = .ok (.int 1) := by
  induction hpre with
  | nil =>
    intro suffix carry
    simp only [List.nil_append, evalOr]
    rw [do_ok he]
    have hm : is_missing v = false := by
      rcases Bool.and_eq_true_iff.mp hv with ⟨h1, _⟩
      simpa using h1
    have ht : pyTruthy (unwrapPair v) = true := (Bool.and_eq_true_iff.mp hv).2
    rw [if_neg (by simp [hm]), if_pos ht]
    rfl
  | @cons p w pre' ws' h1 h2 ih =>
    intro suffix carry
    have hw : isTruthy w = false := hok w (List.mem_cons_self w ws')
    have ihp := ih (fun u hu => hok u (List.mem_cons_of_mem w hu))
    simp only [List.cons_append, evalOr]
    rw [do_ok h1]
    by_cases hm : is_missing w
    · rw [if_pos hm]
      exact ihp suffix w
    · rw [if_neg hm]
      have ht : pyTruthy (unwrapPair w) = false := by
        have := hw
        simp only [isTruthy, hm, Bool.not_false, Bool.true_and] at this
        exact this
      rw [if_neg (by simp [ht])]
      exact ihp suffix carry

/-- Claim C4: AND scans left to right with carry 1 — a missing operand
replaces the carry and scanning continues, the first non-missing falsy
operand returns 0 at once (the arbitrary, even erroring, suffix is
never evaluated), and otherwise the carry (1, or the last-seen missing
value) is returned; OR is symmetric with carry 0 and short-circuit to
1 on the first non-missing truthy operand. -/
theorem claim_C4 :
    (∀ (es : List Expr) (ws : List Value),
      List.Forall₂ (fun e w => eval e = .ok w) es ws →
      eval (.boolOp .andOp es) =
        .ok (if ws.any isFalsy then .int 0 else (lastMissing ws).getD (.int 1))) ∧
    (∀ (es : List Expr) (ws : List Value),
      List.Forall₂ (fun e w => eval e = .ok w) es ws →
      eval (.boolOp .orOp es) =
        .ok (if ws.any isTruthy then .int 1 else (lastMissing ws).getD (.int 0))) ∧
    (∀ (pre : List Expr) (ws_pre : List Value) (e : Expr) (v : Value) (suffix : List Expr),
      List.Forall₂ (fun p w => eval p = .ok w) pre ws_pre →
      (∀ w ∈ ws_pre, isFalsy w = false) →
      eval e = .ok v → isFalsy v = true →
      eval (.boolOp .andOp (pre ++ e :: suffix)) = .ok (.int 0)) ∧
    (∀ (pre : List Expr) (ws_pre : List Value) (e : Expr) (v : Value) (suffix : List Expr),
      List.Forall₂ (fun p w => eval p = .ok w) pre ws_pre →
      (∀ w ∈ ws_pre, isTruthy w = false) →
      eval e = .ok v → isTruthy v = true →
      eval (.boolOp .orOp (pre ++ e :: suffix)) = .ok (.int 1)) := by
  refine ⟨?_, ?_, ?_, ?_⟩
  · intro es ws h
    simp only [eval]
    exact evalAnd_eq h (.int 1)
  · intro es ws h
    simp only [eval]
    exact evalOr_eq h (.int 0)
  · intro pre ws_pre e v suffix hpre hok he hv
    simp only [eval]
    exact evalAnd_short hpre hok he hv suffix (.int 1)
  · intro pre ws_pre e v suffix hpre hok he hv
    simp only [eval]
    exact evalOr_short hpre hok he hv suffix (.int 0)

/-- Witness for C4: `AND(1, MISSING)` returns the carried missing
value, and `AND(1, 0, "a" - "b")` returns 0 without ever evaluating
the erroring third operand. -/
theorem claim_C4_witness :
    eval (.boolOp .andOp [.num 1, .src (.int intMissing) .integer .ordinal]) =
      .ok (.int intMissing) ∧
    eval (.boolOp .andOp [.num 1, .num 0, .binOp (.strE "a") .sub (.strE "b")]) =
      .ok (.int 0) := by
  constructor
  · have h := claim_C4.1 [.num 1, .src (.int intMissing) .integer .ordinal]
      [.int 1, .int intMissing]
      (by refine List.Forall₂.cons ?_ (List.Forall₂.cons ?_ List.Forall₂.nil) <;>
        simp only [eval])
    simpa [isFalsy, is_missing, pyTruthy, unwrapPair, lastMissing, intMissing] using h
  · exact claim_C4.2.2.1 [.num 1] [.int 1] (.num 0) (.int 0)
      [.binOp (.strE "a") .sub (.strE "b")]
      (List.Forall₂.cons (by simp only [eval]) List.Forall₂.nil)
      (by intro w hw; simp at hw; subst hw; simp [isFalsy, is_missing, pyTruthy, unwrapPair, intMissing])
      (by simp only [eval])
      (by simp [isFalsy, is_missing, pyTruthy, unwrapPair, intMissing])

/-- Registry metadata used by `Call._determine_d_m_types`: the static
result types and `meta.returns`, the argument positions whose types
drive the result type. -/
structure FuncTypeMeta where
  d_type : DataType
  m_type : MeasureType
  returns : List Nat

/-- A function-call node as type inference sees it: registry metadata
plus the data and measure types of its argument nodes. -/
structure TypeCall where
  meta : FuncTypeMeta
  args : List (DataType × MeasureType)

/-- The `dt` scan of `_determine_d_m_types` (lines 378-384): decimal
updates the accumulator and scanning continues; text returns
immediately (the `break`). -/
def scan_d_loop : DataType → List (Option DataType) → DataType
  | dt, [] => dt
  | dt, t :: rest =>
    if t = some DataType.decimal then scan_d_loop DataType.decimal rest
    else if t = some DataType.text then DataType.text
    else scan_d_loop dt rest

/-- `Call._determine_d_m_types` (lines 350-396): entries of
`d_types`/`m_types` stay `None` for deriving positions beyond the
argument list. -/
def determine_d_m_types (c : TypeCall) : DataType × MeasureType :=
  if c.args.length = 0 then (c.meta.d_type, c.meta.m_type)
  else if c.meta.returns.length = 0 then (c.meta.d_type, c.meta.m_type)
  else
    let d_types := c.meta.returns.map (fun i => (c.args.get? i).map Prod.fst)
    let m_types := c.meta.returns.map (fun i => (c.args.get? i).map Prod.snd)
    let dt := scan_d_loop DataType.integer d_types
    let mt :=
      if dt = DataType.decimal then MeasureType.continuous
      else if some MeasureType.id ∈ m_types then MeasureType.id
      else if some MeasureType.ordinal ∈ m_types then MeasureType.ordinal
      else MeasureType.nominal
    (dt, mt)

/-- The memo cells `_d_type` and `_m_type` of a call node. -/
structure TypeMemo where
  d : Option DataType
  m : Option MeasureType
deriving DecidableEq, Repr

/-- `Call.data_type` (lines 398-402): on a cold cell,
`_determine_d_m_types` runs and fills both cells; otherwise the cell
is read back.  The boolean records whether the determination ran. -/
def call_data_type (c : TypeCall) (st : TypeMemo) : DataType × TypeMemo × Bool :=
  match st.d with
  | some d => (d, st, false)
  | none =>
    let r := determine_d_m_types c
    (r.1, ⟨some r.1, some r.2⟩, true)

/-- `Call.measure_type` (lines 404-408). -/
def call_measure_type (c : TypeCall) (st : TypeMemo) : MeasureType × TypeMemo × Bool :=
  match st.m with
  | some m => (m, st, false)
  | none =>
    let r := determine_d_m_types c
    (r.2, ⟨some r.1, some r.2⟩, true)

theorem scan_d_loop_eq (dts : List (Option DataType)) (dt0 : DataType)
    (h : dt0 ≠ DataType.text) :
    scan_d_loop dt0 dts =
      if some DataType.text ∈ dts then DataType.text
      else if some DataType.decimal ∈ dts then DataType.decimal
      else dt0 := by
  induction dts generalizing dt0 with
  | nil => simp [scan_d_loop]
  | cons t rest ih =>
    by_cases hd : t = some DataType.decimal
    · subst hd
      rw [scan_d_loop, if_pos rfl, ih DataType.decimal (by simp)]
      simp [List.mem_cons]
    · by_cases htx : t = some DataType.text
      · subst htx
        rw [scan_d_loop, if_neg (by simp), if_pos rfl]
        simp [List.mem_cons]
      · rw [scan_d_loop, if_neg hd, if_neg htx, ih dt0 h]
        simp only [List.mem_cons]
        have h1 : ¬(some DataType.text = t) := fun hc => htx hc.symm
        have h2 : ¬(some DataType.decimal = t) := fun hc => hd hc.symm
        simp [h1, h2]

/-- Claim C8: with at least one argument and a non-empty list of
type-deriving positions, the inferred data type is text if any
deriving argument is text (text beats decimal whatever the scan
order), else decimal if any is decimal, else integer; the measure type
is continuous when the data type is decimal, else identifier / ordinal
/ nominal by priority among the deriving arguments; and the result is
determined once — the second read of either property comes from the
memo without re-running the determination. -/
theorem claim_C8 (c : TypeCall)
    (h1 : c.args.length ≠ 0) (h2 : c.meta.returns.length ≠ 0) :
    (call_data_type c ⟨none, none⟩).1 =
      (if some DataType.text ∈ c.meta.returns.map (fun i => (c.args.get? i).map Prod.fst)
       then DataType.text
       else if some DataType.decimal ∈ c.meta.returns.map (fun i => (c.args.get? i).map Prod.fst)
       then DataType.decimal else DataType.integer) ∧
    (call_measure_type c ⟨none, none⟩).1 =
      (if (call_data_type c ⟨none, none⟩).1 = DataType.decimal then MeasureType.continuous
       else if some MeasureType.id ∈ c.meta.returns.map (fun i => (c.args.get? i).map Prod.snd)
       then MeasureType.id
       else if some MeasureType.ordinal ∈ c.meta.returns.map (fun i => (c.args.get? i).map Prod.snd)
       then MeasureType.ordinal else MeasureType.nominal) ∧
    call_data_type c (call_data_type c ⟨none, none⟩).2.1 =
      ((call_data_type c ⟨none, none⟩).1, (call_data_type c ⟨none, none⟩).2.1, false) ∧
    call_measure_type c (call_data_type c ⟨none, none⟩).2.1 =
      ((call_measure_type c ⟨none, none⟩).1, (call_data_type c ⟨none, none⟩).2.1, false) := by
  have hdm : determine_d_m_types c =
      (scan_d_loop DataType.integer (c.meta.returns.map (fun i => (c.args.get? i).map Prod.fst)),
       if scan_d_loop DataType.integer (c.meta.returns.map (fun i => (c.args.get? i).map Prod.fst)) = DataType.decimal
       then MeasureType.continuous
       else if some MeasureType.id ∈ c.meta.returns.map (fun i => (c.args.get? i).map Prod.snd)
       then MeasureType.id
       else if some MeasureType.ordinal ∈ c.meta.returns.map (fun i => (c.args.get? i).map Prod.snd)
       then MeasureType.ordinal else MeasureType.nominal) := by
    unfold determine_d_m_types
    rw [if_neg h1, if_neg h2]
  have hscan := scan_d_loop_eq (c.meta.returns.map (fun i => (c.args.get? i).map Prod.fst))
    DataType.integer (by simp)
  refine ⟨?_, ?_, ?_, ?_⟩
  · show (call_data_type c ⟨none, none⟩).1 = _
    unfold call_data_type
    simp only [hdm, hscan]
  · unfold call_measure_type call_data_type
    simp only [hdm, hscan]
  · unfold call_data_type
    simp only [hdm]
  · unfold call_measure_type call_data_type
    simp only [hdm]

/-- Witness for C8: deriving positions 0 and 1 over a decimal argument
followed by a text argument — text wins although decimal is scanned
first; the second read is served from the memo. -/
theorem claim_C8_witness :
    (call_data_type
      ⟨⟨DataType.integer, MeasureType.nominal, [0, 1]⟩,
       [(DataType.decimal, MeasureType.continuous), (DataType.text, MeasureType.nominal)]⟩
      ⟨none, none⟩).1 = DataType.text ∧
    (call_data_type
      ⟨⟨DataType.integer, MeasureType.nominal, [0, 1]⟩,
       [(DataType.decimal, MeasureType.continuous), (DataType.text, MeasureType.nominal)]⟩
      (call_data_type
        ⟨⟨DataType.integer, MeasureType.nominal, [0, 1]⟩,
         [(DataType.decimal, MeasureType.continuous), (DataType.text, MeasureType.nominal)]⟩
        ⟨none, none⟩).2.1).2.2 = false := by
  have h := claim_C8
    ⟨⟨DataType.integer, MeasureType.nominal, [0, 1]⟩,
     [(DataType.decimal, MeasureType.continuous), (DataType.text, MeasureType.nominal)]⟩
    (by simp) (by simp)
  refine ⟨?_, ?_⟩
  · rw [h.1]
    decide
  · rw [h.2.2.1]

/-- What level discovery needs of an argument node: whether it exposes
levels (`has_levels`) and, if so, its discovered levels. -/
structure ArgLevels where
  has_levels : Bool
  levels : List (Int × String)

/-- A function-call node as `Call.get_levels` sees it: the
`arg_level_indices` registry metadata, the arguments' level
information, the node's (memoized) result types, and its full column
of values — `self.fvalues(row_count, False)` materialized, modelled
from the spec's lazy column view. -/
structure LevelCall where
  arg_level_indices : List Nat
  args : List ArgLevels
  data_type : DataType
  measure_type : MeasureType
  column : List Value

/-- The insertion order of the `level_use` OrderedDict (lines
428-437): candidate labels contributed by each level-source argument
position in encounter order, deduplicated on first appearance
(re-inserting an existing key neither moves it nor is counted again). -/
def candidate_labels (c : LevelCall) : List String :=
  c.arg_level_indices.foldl
    (fun acc arg_i =>
      match c.args.get? arg_i with
      | none => acc
      | some arg =>
        if arg.has_levels then
          arg.levels.foldl
            (fun acc2 lv => if lv.2 ∈ acc2 then acc2 else acc2 ++ [lv.2]) acc
        else acc)
    []

/-- The counting scan of lines 439-444: a candidate label's use count
exceeds 0 exactly when some non-missing column value converts to it. -/
def label_used (c : LevelCall) (label : String) : Bool :=
  c.column.any (fun v => !is_missing v && str_of (convert v PyType.str) == label)

/-- `Call.get_levels` (lines 414-450): guards, then the retained
labels in `level_use` insertion order, renumbered from 0. -/
def get_levels (c : LevelCall) : List (Int × String) :=
  if c.arg_level_indices.length = 0 then []
  else if c.args.length = 0 then []
  else if c.data_type ≠ DataType.text then []
  else if c.measure_type = MeasureType.id then []
  else
    let used := (candidate_labels c).filter (fun l => label_used c l)
    used.enum.map (fun p => ((p.1 : Int), p.2))

/-- Claim C7: for a level-relevant call node, the retained labels are
exactly the candidate labels used at least once in the node's column
(missing values ignored), kept in candidate first-appearance order;
the codes are the dense sequence 0..n-1; and re-running discovery on
unchanged data returns the same list. -/
theorem claim_C7 (c : LevelCall)
    (h1 : c.arg_level_indices.length ≠ 0) (h2 : c.args.length ≠ 0)
    (h3 : c.data_type = DataType.text) (h4 : c.measure_type ≠ MeasureType.id) :
    (get_levels c).map Prod.snd =
      (candidate_labels c).filter (fun l => label_used c l) ∧
    (get_levels c).map Prod.fst = (List.range (get_levels c).length).map Int.ofNat ∧
    get_levels c = get_levels c := by
  have hg : get_levels c =
      ((candidate_labels c).filter (fun l => label_used c l)).enum.map
        (fun p => ((p.1 : Int), p.2)) := by
    unfold get_levels
    rw [if_neg h1, if_neg h2, if_neg (by simp [h3]), if_neg h4]
  refine ⟨?_, ?_, rfl⟩
  · rw [hg, List.map_map]
    have : (Prod.snd ∘ fun p : ℕ × String => ((p.1 : Int), p.2)) = Prod.snd := by
      funext p; rfl
    rw [this, List.enum_map_snd]
  · rw [hg, List.map_map, List.length_map]
    have : (Prod.fst ∘ fun p : ℕ × String => ((p.1 : Int), p.2)) = (Int.ofNat ∘ Prod.fst) := by
      funext p; rfl
    rw [this, ← List.map_map, List.enum_map_fst, List.enum_length]

/-- Witness for C7: candidates arrive as `"b"` then `"a"`; both are
used in the column (the missing value is ignored) and keep candidate
order with dense codes. -/
theorem claim_C7_witness :
    (get_levels
      ⟨[0], [⟨true, [(0, "b"), (1, "a")]⟩], DataType.text, MeasureType.nominal,
       [.str "a", .str "b", .dec none, .str "a"]⟩).map Prod.snd = ["b", "a"] ∧
    (get_levels
      ⟨[0], [⟨true, [(0, "b"), (1, "a")]⟩], DataType.text, MeasureType.nominal,
       [.str "a", .str "b", .dec none, .str "a"]⟩).map Prod.fst = [0, 1] := by
  have h := claim_C7
    ⟨[0], [⟨true, [(0, "b"), (1, "a")]⟩], DataType.text, MeasureType.nominal,
     [.str "a", .str "b", .dec none, .str "a"]⟩
    (by simp) (by simp) rfl (by simp)
  refine ⟨?_, ?_⟩
  · rw [h.1]
    decide
  · rw [h.2.1]
    decide

/-- Witness for the amended C9 at `3 & 4` (bitwise-and is outside the
supported set) and at unary minus, which never raises the fatal error. -/
theorem claim_C9_amended_witness :
    (∃ m, eval (.binOp (.num 3) .bitAnd (.num 4)) = .ok m ∧ is_missing m = true) ∧
    unaryApply .usub (.int 5) ≠ .error Err.runtime := by
  have h := claim_C9_amended .bitAnd (.num 3) (.num 4) (.int 3) (.int 4) (by simp)
    (by simp only [eval]) (by simp only [eval])
  exact ⟨h.1, h.2 .usub (.int 5)⟩

/-- A whole-column function call as the column-wise branch of
`Call.fvalue` (lines 320-328) sees it: the registry function together
with its materialized, domain-converted argument columns (the
`fvalues`/`convert` pipeline of lines 322-326 folded into
`argColumns`). -/
structure ColCall where
  func : List (List Value) → Value
  argColumns : List (List Value)

/-- One evaluation of the column-wise branch: a cache miss runs the
registry function and stores the result; a hit returns the memo.  The
boolean records whether the underlying function was invoked.  The row
index is accepted and ignored exactly as the source branch ignores it. -/
def col_fvalue (c : ColCall) (index : Nat) (cache : Option Value) :
    Value × Option Value × Bool :=
  match cache with
  | some v => (v, some v, false)
  | none => (c.func c.argColumns, some (c.func c.argColumns), true)

/-- `Call.needs_recalc` (lines 342-344): true exactly when the memo is
absent. -/
def call_needs_recalc (cache : Option Value) : Bool := cache.isNone

/-- Repeated evaluation at a list of row indices, threading the cache
and counting underlying invocations. -/
def col_fvalue_many (c : ColCall) : List Nat → Option Value → List Value × Option Value × Nat
  | [], cache => ([], cache, 0)
  | i :: is, cache =>
    let r := col_fvalue c i cache
    let rest := col_fvalue_many c is r.2.1
    (r.1 :: rest.1, rest.2.1, (if r.2.2 then 1 else 0) + rest.2.2)

/-- The upward dependency graph reachable from a node: each node
carries whether it is a call node, its memo cell (meaningless for
non-call nodes), and its parent back-references.  The back-reference
graph of an expression tree is acyclic, so the upward closure unfolds
to a tree (a shared ancestor appears once per path — the source's
broadcast is likewise not deduplicated). -/
inductive UpNode where
  | mk (isCall : Bool) (cache : Option Value) (parents : List UpNode)

/-- Whether the node is a call node. -/
def UpNode.isCall : UpNode → Bool
  | .mk b _ _ => b

/-- The node's memo cell. -/
def UpNode.cache : UpNode → Option Value
  | .mk _ c _ => c

/-- The node's parent back-references. -/
def UpNode.parents : UpNode → List UpNode
  | .mk _ _ ps => ps

mutual

/-- `set_needs_recalc`: a call node clears its memo
(`Call.set_needs_recalc`, lines 346-348) and, like every node
(`Node.set_needs_recalc`, lines 25-27), propagates the notification to
each of its parents. -/
def set_needs_recalc : UpNode → UpNode
  | .mk isCall cache ps => .mk isCall (if isCall then none else cache) (set_needs_recalc_list ps)

/-- Propagation of `set_needs_recalc` to each node of a parent list,
left to right. -/
def set_needs_recalc_list : List UpNode → List UpNode
  | [] => []
  | p :: ps => set_needs_recalc p :: set_needs_recalc_list ps

end

theorem col_fvalue_many_hit (c : ColCall) (v : Value) :
    ∀ idxs : List Nat,
      col_fvalue_many c idxs (some v) = (idxs.map (fun _ => v), some v, 0) := by
  intro idxs
  induction idxs with
  | nil => rfl
  | cons i is ih => simp [col_fvalue_many, col_fvalue, ih]

/-- Claim C2: a whole-column call node evaluated any number of times
at any row indices without an intervening invalidation invokes the
registry function exactly once, every evaluation returning the
memoized value; `needs_recalc` is true exactly when the memo is
absent; and the recalc notification clears the memo (so the next
evaluation re-invokes the function) while still propagating to every
parent. -/
theorem claim_C2 (c : ColCall) :
    (∀ idxs : List Nat, idxs ≠ [] →
      col_fvalue_many c idxs none =
        (idxs.map (fun _ => c.func c.argColumns), some (c.func c.argColumns), 1)) ∧
    (∀ (idxs : List Nat) (v : Value),
      col_fvalue_many c idxs (some v) = (idxs.map (fun _ => v), some v, 0)) ∧
    (call_needs_recalc none = true ∧ ∀ v : Value, call_needs_recalc (some v) = false) ∧
    (∀ (cache : Option Value) (ps : List UpNode),
      (set_needs_recalc (.mk true cache ps)).cache = none ∧
      (set_needs_recalc (.mk true cache ps)).parents = ps.map set_needs_recalc) ∧
    (∀ i : Nat, (col_fvalue c i none).2.2 = true) := by
  refine ⟨?_, ?_, ⟨rfl, fun v => rfl⟩, ?_, fun i => rfl⟩
  · intro idxs hne
    cases idxs with
    | nil => exact absurd rfl hne
    | cons i is =>
      simp [col_fvalue_many, col_fvalue, col_fvalue_many_hit]
  · intro idxs v
    exact col_fvalue_many_hit c v idxs
  · intro cache ps
    refine ⟨rfl, ?_⟩
    show set_needs_recalc_list ps = ps.map set_needs_recalc
    induction ps with
    | nil => rfl
    | cons p ps ih => simp [set_needs_recalc_list, ih]

/-- Witness for C2: three evaluations at rows 5, 0 and 7 invoke the
underlying function once and all return its value. -/
theorem claim_C2_witness :
    col_fvalue_many ⟨fun cols => .int ((cols.headD []).length), [[.int 4, .int 9]]⟩
        [5, 0, 7] none =
      ([.int 2, .int 2, .int 2], some (.int 2), 1) := by
  have h := (claim_C2 ⟨fun cols => .int ((cols.headD []).length), [[.int 4, .int 9]]⟩).1
    [5, 0, 7] (by simp)
  simpa using h

/-- A registry parameter as `Call.__init__` inspects it: whether its
default is a function reference and, if so, that function's name
(`params[name].default` being a `function` is what the source tests). -/
structure ParamInfo where
  default_func : Option String
deriving DecidableEq, Repr

/-- A registry function descriptor: the declared parameter list, the
implicit leading row-index parameter of row-wise functions already
dropped (lines 279-282). -/
structure FuncDesc where
  params : List ParamInfo
deriving DecidableEq, Repr

/-- A descriptor none of whose parameters default to a function — the
shape of typical default sub-functions. -/
def simple_desc (d : FuncDesc) : Prop :=
  ∀ p ∈ d.params, p.default_func = none

/-- The scan of lines 292-296 applied to the reversed parameter list:
count parameters while their defaults are function references. -/
def count_leading_func : List ParamInfo → Nat
  | [] => 0
  | p :: ps => if p.default_func.isSome then 1 + count_leading_func ps else 0

/-- `sub_arg_len` (lines 291-296): the number of parameters before the
trailing run of function-valued defaults. -/
def sub_arg_len (params : List ParamInfo) : Nat :=
  params.length - count_leading_func params.reverse

/-- The node graph of a call under construction: `arg` is an argument
node supplied by the caller (opaque here), `call` a function-call
node; every node carries an identity so parent back-references can be
tracked. -/
inductive CNode where
  | arg (id : Nat)
  | call (id : Nat) (fname : String) (args : List CNode)

/-- The node's identity. -/
def CNode.nid : CNode → Nat
  | .arg i => i
  | .call i _ _ => i

/-- `Node._add_node_parent` applied to each shared argument in turn
(lines 305-306): append the new parent to the argument's
back-reference list. -/
def add_parents : List CNode → Nat → (Nat → List Nat) → (Nat → List Nat)
  | [], _, pm => pm
  | a :: rest, parent, pm =>
    add_parents rest parent (fun x => if x = a.nid then pm a.nid ++ [parent] else pm x)

mutual

/-- `Call.__init__` (lines 261-311) restricted to what the claim
observes: read the parameter list, compute `sub_arg_len`, slice the
shared arguments, run the synthesis loop, and build the node.  `fuel`
bounds the recursive construction of synthesized inner calls (the
registry could be cyclic); `fresh` supplies identities for new nodes;
`pm` is the parent-reference state. -/
def mkCall (reg : String → FuncDesc) (fuel : Nat) (fname : String) (args : List CNode)
    (fresh : Nat) (pm : Nat → List Nat) : Option (CNode × Nat × (Nat → List Nat)) :=
  match fuel with
  | 0 => none
  | fuel' + 1 =>
    match synth_loop reg fuel'
        ((reg fname).params.drop (sub_arg_len (reg fname).params))
        (sub_arg_len (reg fname).params)
        (args.take (sub_arg_len (reg fname).params)) args fresh pm with
    | none => none
    | some (args2, fresh2, pm2) => some (.call fresh2 fname args2, fresh2 + 1, pm2)
termination_by (fuel, 0)

/-- The synthesis loop (lines 299-309): for each remaining parameter
position `i`, while the argument list has not caught up
(`len(args) <= i`), construct a call to the position's default
sub-function over the shared arguments, register it as a parent of
each shared argument, and append it to the argument list; break at the
first explicitly supplied argument.  A position reached here whose
default is not a function cannot arise (those positions are before
`sub_arg_len`) and is mapped to failure. -/
def synth_loop (reg : String → FuncDesc) (fuel : Nat) (ps : List ParamInfo) (i : Nat)
    (shared : List CNode) (args : List CNode) (fresh : Nat) (pm : Nat → List Nat) :
    Option (List CNode × Nat × (Nat → List Nat)) :=
  match ps with
  | [] => some (args, fresh, pm)
  | p :: rest =>
    if args.length ≤ i then
      match p.default_func with
      | none => none
      | some subname =>
        match mkCall reg fuel subname shared fresh pm with
        | none => none
        | some (newNode, fresh2, pm2) =>
          synth_loop reg fuel rest (i + 1) shared (args ++ [newNode]) fresh2
            (add_parents shared newNode.nid pm2)
    else some (args, fresh, pm)
termination_by (fuel, ps.length + 1)

end

/-- Python `list.remove`: drop the first occurrence, `none` modelling
the ValueError when the value is absent. -/
def list_remove (x : Nat) : List Nat → Option (List Nat)
  | [] => none
  | y :: ys => if y = x then some ys else (list_remove x ys).map (fun l => y :: l)

/-- `Node._remove_node_parent` (lines 43-44) on the parent map. -/
def pm_remove (child parent : Nat) (pm : Nat → List Nat) : Option (Nat → List Nat) :=
  (list_remove parent (pm child)).map (fun l => fun x => if x = child then l else pm x)

mutual

/-- `_release`: a leaf's release is a no-op (lines 46-47); a call
releases each argument recursively and unlinks itself from the
argument's parent list (lines 463-466). -/
def release : CNode → (Nat → List Nat) → Option (Nat → List Nat)
  | .arg _, pm => some pm
  | .call i _ args, pm => release_args i args pm

/-- The per-argument loop of `Call._release`. -/
def release_args (self : Nat) : List CNode → (Nat → List Nat) → Option (Nat → List Nat)
  | [], pm => some pm
  | a :: rest, pm =>
    match release a pm with
    | none => none
    | some pm1 =>
      match pm_remove a.nid self pm1 with
      | none => none
      | some pm2 => release_args self rest pm2

end

/-- The identities handed to the nodes a synthesis loop creates:
`fresh`, `fresh + 1`, ... one per synthesized sub-function call. -/
def synth_ids (fresh : Nat) : List String → List Nat
  | [] => []
  | _ :: gs => fresh :: synth_ids (fresh + 1) gs

/-- The nodes a synthesis loop creates: one call per default
sub-function name, each over the shared arguments. -/
def synth_nodes (shared : List CNode) (fresh : Nat) : List String → List CNode
  | [] => []
  | g :: gs => .call fresh g shared :: synth_nodes shared (fresh + 1) gs

theorem sub_arg_len_simple {d : FuncDesc} (h : simple_desc d) :
    sub_arg_len d.params = d.params.length := by
  unfold sub_arg_len
  cases hrev : d.params.reverse with
  | nil => simp [count_leading_func]
  | cons p ps =>
    have hp : p ∈ d.params := by
      rw [← List.mem_reverse, hrev]
      exact List.mem_cons_self p ps
    simp [count_leading_func, h p hp]

theorem mkCall_simple {reg : String → FuncDesc} {g : String} (h : simple_desc (reg g))
    (fuel : Nat) (shared : List CNode) (fresh : Nat) (pm : Nat → List Nat) :
    mkCall reg (fuel + 1) g shared fresh pm = some (.call fresh g shared, fresh + 1, pm) := by
  rw [mkCall]
  simp only [sub_arg_len_simple h, List.drop_length]
  rw [synth_loop]

theorem add_parents_eq (shared : List CNode) (parent : Nat) (pm : Nat → List Nat)
    (hnodup : (shared.map CNode.nid).Nodup) :
    add_parents shared parent pm =
      fun x => if x ∈ shared.map CNode.nid then pm x ++ [parent] else pm x := by
  induction shared generalizing pm with
  | nil => funext x; simp [add_parents]
  | cons a rest ih =>
    rw [List.map_cons, List.nodup_cons] at hnodup
    have hna : a.nid ∉ rest.map CNode.nid := hnodup.1
    have hnd : (rest.map CNode.nid).Nodup := hnodup.2
    rw [add_parents, ih _ hnd]
    funext x
    by_cases hx : x ∈ rest.map CNode.nid
    · have hxa : x ≠ a.nid := fun hc => hna (hc ▸ hx)
      simp [hx, hxa, List.mem_cons]
    · by_cases hxa : x = a.nid
      · subst hxa
        simp [hx, List.mem_cons]
      · simp [hx, hxa, List.mem_cons]

theorem synth_ids_ge {x : Nat} : ∀ {gs : List String} {f : Nat}, x ∈ synth_ids f gs → f ≤ x := by
  intro gs
  induction gs with
  | nil => intro f h; simp [synth_ids] at h
  | cons g rest ih =>
    intro f h
    rw [synth_ids] at h
    rcases List.mem_cons.mp h with h1 | h2
    · omega
    · have := ih h2
      omega

theorem synth_ids_lt {x : Nat} : ∀ {gs : List String} {f : Nat},
    x ∈ synth_ids f gs → x < f + gs.length := by
  intro gs
  induction gs with
  | nil => intro f h; simp [synth_ids] at h
  | cons g rest ih =>
    intro f h
    rw [synth_ids] at h
    rcases List.mem_cons.mp h with h1 | h2
    · simp [h1]
    · have := ih h2
      simp only [List.length_cons]
      omega

theorem list_remove_eq (x : Nat) (l : List Nat) :
    list_remove x l = if x ∈ l then some (l.erase x) else none := by
  induction l with
  | nil => simp [list_remove]
  | cons y ys ih =>
    rw [list_remove]
    by_cases hyx : y = x
    · subst hyx
      simp [List.erase_cons_head]
    · have hxy : ¬(y == x) = true := by simp [hyx]
      rw [if_neg hyx, ih]
      by_cases hx : x ∈ ys
      · simp [hx, hyx, List.erase_cons, hxy]
      · have hne : ¬x = y := fun hc => hyx hc.symm
        have : ¬x ∈ y :: ys := by simp [hx, hne]
        simp [hx, this]

theorem synth_loop_run {reg : String → FuncDesc} {shared : List CNode}
    (hnodup : (shared.map CNode.nid).Nodup) :
    ∀ (subs : List ParamInfo) (gs : List String),
      subs.map ParamInfo.default_func = gs.map some →
      (∀ g ∈ gs, simple_desc (reg g)) →
      ∀ (fuel i : Nat) (args : List CNode) (fresh : Nat) (pm : Nat → List Nat),
        args.length ≤ i →
        synth_loop reg (fuel + 1) subs i shared args fresh pm =
          some (args ++ synth_nodes shared fresh gs, fresh + gs.length,
            fun x => if x ∈ shared.map CNode.nid then pm x ++ synth_ids fresh gs else pm x) := by
  intro subs
  induction subs with
  | nil =>
    intro gs hgs hsimple fuel i args fresh pm hle
    have hgs0 : gs = [] := by
      cases gs with
      | nil => rfl
      | cons g gs2 => simp at hgs
    subst hgs0
    rw [synth_loop]
    simp only [synth_nodes, synth_ids, List.append_nil, List.length_nil, Nat.add_zero,
      Prod.mk.injEq]
    refine congrArg some ?_
    simp only [Prod.mk.injEq, true_and]
    funext x
    by_cases hx : x ∈ shared.map CNode.nid <;> simp [hx]
  | cons p rest ih =>
    intro gs hgs hsimple fuel i args fresh pm hle
    cases gs with
    | nil => simp at hgs
    | cons g gs2 =>
      simp only [List.map_cons, List.cons.injEq] at hgs
      obtain ⟨hp, hrest⟩ := hgs
      rw [synth_loop, if_pos hle]
      simp only [hp]
      simp only [mkCall_simple (hsimple g (List.mem_cons_self g gs2)) fuel shared fresh pm,
        CNode.nid]
      rw [add_parents_eq shared fresh pm hnodup]
      have hlen2 : (args ++ [CNode.call fresh g shared]).length ≤ i + 1 := by
        simp [hle]
      rw [ih gs2 hrest (fun g2 hg2 => hsimple g2 (List.mem_cons_of_mem g hg2)) fuel (i + 1)
        (args ++ [CNode.call fresh g shared]) (fresh + 1) _ hlen2]
      refine congrArg some ?_
      simp only [Prod.mk.injEq]
      refine ⟨?_, ?_, ?_⟩
      · rw [List.append_assoc]
        rfl
      · simp only [List.length_cons]
        omega
      · funext x
        by_cases hx : x ∈ shared.map CNode.nid <;> simp [hx, synth_ids]

theorem mkCall_run {reg : String → FuncDesc} {fname : String} {uargs : List CNode}
    {gs : List String}
    (hnodup : (uargs.map CNode.nid).Nodup)
    (hsubs : ((reg fname).params.drop (sub_arg_len (reg fname).params)).map
      ParamInfo.default_func = gs.map some)
    (hsimple : ∀ g ∈ gs, simple_desc (reg g))
    (hk : uargs.length ≤ sub_arg_len (reg fname).params)
    (fuel fresh : Nat) (pm : Nat → List Nat) :
    mkCall reg (fuel + 2) fname uargs fresh pm =
      some (.call (fresh + gs.length) fname (uargs ++ synth_nodes uargs fresh gs),
        fresh + gs.length + 1,
        fun x => if x ∈ uargs.map CNode.nid then pm x ++ synth_ids fresh gs else pm x) := by
  rw [mkCall]
  rw [List.take_of_length_le hk]
  rw [synth_loop_run hnodup _ gs hsubs hsimple fuel (sub_arg_len (reg fname).params)
    uargs fresh pm hk]

theorem mkCall_break {reg : String → FuncDesc} {fname : String} {vargs : List CNode}
    (hk : sub_arg_len (reg fname).params < vargs.length)
    (fuel fresh : Nat) (pm : Nat → List Nat) :
    mkCall reg (fuel + 1) fname vargs fresh pm = some (.call fresh fname vargs, fresh + 1, pm) := by
  rw [mkCall]
  cases hd : (reg fname).params.drop (sub_arg_len (reg fname).params) with
  | nil => rw [synth_loop]
  | cons p rest =>
    rw [synth_loop, if_neg (by omega)]

theorem release_args_leaves (self : Nat) :
    ∀ (us : List CNode) (pm : Nat → List Nat),
      (∀ a ∈ us, ∃ j, a = CNode.arg j) →
      (us.map CNode.nid).Nodup →
      (∀ a ∈ us, self ∈ pm a.nid) →
      release_args self us pm =
        some (fun x => if x ∈ us.map CNode.nid then (pm x).erase self else pm x) := by
  intro us
  induction us with
  | nil =>
    intro pm _ _ _
    rw [release_args]
    refine congrArg some ?_
    funext x
    simp
  | cons a rest ih =>
    intro pm hleaf hnodup hmem
    obtain ⟨j, hj⟩ := hleaf a (List.mem_cons_self a rest)
    subst hj
    rw [release_args]
    simp only [release]
    have hjm : self ∈ pm (CNode.arg j).nid := hmem _ (List.mem_cons_self _ rest)
    have hrem : pm_remove (CNode.arg j).nid self pm =
        some (fun x => if x = j then (pm j).erase self else pm x) := by
      unfold pm_remove
      rw [list_remove_eq, if_pos hjm]
      rfl
    simp only [hrem]
    rw [List.map_cons, List.nodup_cons] at hnodup
    have hmem2 : ∀ b ∈ rest, self ∈
        (fun x => if x = j then (pm j).erase self else pm x) b.nid := by
      intro b hb
      have hbj : b.nid ≠ j := by
        intro hc
        apply hnodup.1
        show j ∈ List.map CNode.nid rest
        rw [← hc]
        exact List.mem_map_of_mem CNode.nid hb
      simpa [hbj] using hmem b (List.mem_cons_of_mem _ hb)
    rw [ih _ (fun b hb => hleaf b (List.mem_cons_of_mem _ hb)) hnodup.2 hmem2]
    refine congrArg some ?_
    funext x
    by_cases hx : x ∈ rest.map CNode.nid
    · have hxj : x ≠ j := by
        intro hc
        apply hnodup.1
        show j ∈ List.map CNode.nid rest
        rw [← hc]
        exact hx
      simp [hx, hxj, List.mem_cons, CNode.nid]
    · by_cases hxj : x = j
      · subst hxj
        simp [hx, List.mem_cons, CNode.nid]
      · simp [hx, hxj, List.mem_cons, CNode.nid]

theorem release_args_append (self : Nat) :
    ∀ (xs ys : List CNode) (pm : Nat → List Nat),
      release_args self (xs ++ ys) pm =
        match release_args self xs pm with
        | none => none
        | some pm1 => release_args self ys pm1 := by
  intro xs
  induction xs with
  | nil =>
    intro ys pm
    simp only [List.nil_append, release_args]
  | cons a rest ih =>
    intro ys pm
    simp only [List.cons_append, release_args]
    cases hra : release a pm with
    | none => rfl
    | some pm1 =>
      show (match pm_remove a.nid self pm1 with
        | none => none
        | some pm2 => release_args self (rest ++ ys) pm2) =
        match (match pm_remove a.nid self pm1 with
          | none => none
          | some pm2 => release_args self rest pm2) with
        | none => none
        | some pmz => release_args self ys pmz
      cases hrm : pm_remove a.nid self pm1 with
      | none => rfl
      | some pm2 => exact ih ys pm2

theorem release_args_synths (oid : Nat) (uargs : List CNode)
    (hleaf : ∀ a ∈ uargs, ∃ j, a = CNode.arg j)
    (hnodup : (uargs.map CNode.nid).Nodup) :
    ∀ (gs : List String) (fresh : Nat) (pm : Nat → List Nat),
      (∀ a ∈ uargs, pm a.nid = synth_ids fresh gs) →
      (∀ cid ∈ synth_ids fresh gs, pm cid = [oid]) →
      (∀ a ∈ uargs, ∀ cid, fresh ≤ cid → a.nid ≠ cid) →
      release_args oid (synth_nodes uargs fresh gs) pm =
        some (fun x => if x ∈ uargs.map CNode.nid ∨ x ∈ synth_ids fresh gs then [] else pm x) := by
  intro gs
  induction gs with
  | nil =>
    intro fresh pm hu hc hdisj
    rw [show synth_nodes uargs fresh [] = [] from rfl, release_args]
    refine congrArg some ?_
    funext x
    by_cases hx : x ∈ uargs.map CNode.nid
    · obtain ⟨a, ha, hax⟩ := List.mem_map.mp hx
      have := hu a ha
      rw [hax] at this
      simp [hx, this, synth_ids]
    · simp [hx, synth_ids]
  | cons g gs2 ih =>
    intro fresh pm hu hc hdisj
    have hfresh_not_u : fresh ∉ uargs.map CNode.nid := by
      intro hmem
      obtain ⟨a, ha, hax⟩ := List.mem_map.mp hmem
      exact hdisj a ha fresh (Nat.le_refl fresh) hax
    rw [show synth_nodes uargs fresh (g :: gs2) =
      CNode.call fresh g uargs :: synth_nodes uargs (fresh + 1) gs2 from rfl]
    rw [release_args]
    simp only [release]
    have hmemA : ∀ a ∈ uargs, fresh ∈ pm a.nid := by
      intro a ha
      rw [hu a ha, show synth_ids fresh (g :: gs2) = fresh :: synth_ids (fresh + 1) gs2 from rfl]
      exact List.mem_cons_self _ _
    rw [release_args_leaves fresh uargs pm hleaf hnodup hmemA]
    have hpmA_fresh : (fun x => if x ∈ uargs.map CNode.nid then (pm x).erase fresh else pm x)
        (CNode.call fresh g uargs).nid = [oid] := by
      simp only [CNode.nid, hfresh_not_u, if_false]
      exact hc fresh (by
        rw [show synth_ids fresh (g :: gs2) = fresh :: synth_ids (fresh + 1) gs2 from rfl]
        exact List.mem_cons_self _ _)
    have hrem : pm_remove (CNode.call fresh g uargs).nid oid
        (fun x => if x ∈ uargs.map CNode.nid then (pm x).erase fresh else pm x) =
        some (fun x => if x = fresh then []
          else if x ∈ uargs.map CNode.nid then (pm x).erase fresh else pm x) := by
      unfold pm_remove
      rw [show (CNode.call fresh g uargs).nid = fresh from rfl]
      rw [show (fun x => if x ∈ uargs.map CNode.nid then (pm x).erase fresh else pm x) fresh
        = [oid] from by simpa [CNode.nid] using hpmA_fresh]
      rw [list_remove_eq]
      simp [List.erase_cons_head]
    simp only [hrem]
    have hu2 : ∀ a ∈ uargs, (fun x => if x = fresh then []
        else if x ∈ uargs.map CNode.nid then (pm x).erase fresh else pm x) a.nid =
        synth_ids (fresh + 1) gs2 := by
      intro a ha
      have hne : a.nid ≠ fresh := hdisj a ha fresh (Nat.le_refl fresh)
      have hmm : a.nid ∈ uargs.map CNode.nid := List.mem_map_of_mem CNode.nid ha
      simp only [hne, if_false, hmm, if_true]
      rw [hu a ha, show synth_ids fresh (g :: gs2) = fresh :: synth_ids (fresh + 1) gs2 from rfl]
      exact List.erase_cons_head fresh _
    have hc2 : ∀ cid ∈ synth_ids (fresh + 1) gs2, (fun x => if x = fresh then []
        else if x ∈ uargs.map CNode.nid then (pm x).erase fresh else pm x) cid = [oid] := by
      intro cid hcid
      have hge : fresh + 1 ≤ cid := synth_ids_ge hcid
      have hne : cid ≠ fresh := by omega
      have hnu : cid ∉ uargs.map CNode.nid := by
        intro hmem
        obtain ⟨a, ha, hax⟩ := List.mem_map.mp hmem
        exact hdisj a ha cid (by omega) hax
      simp only [hne, if_false, hnu]
      exact hc cid (by
        rw [show synth_ids fresh (g :: gs2) = fresh :: synth_ids (fresh + 1) gs2 from rfl]
        exact List.mem_cons_of_mem _ hcid)
    have hdisj2 : ∀ a ∈ uargs, ∀ cid, fresh + 1 ≤ cid → a.nid ≠ cid := by
      intro a ha cid hcid
      exact hdisj a ha cid (by omega)
    rw [ih (fresh + 1) _ hu2 hc2 hdisj2]
    refine congrArg some ?_
    funext x
    by_cases hx : x ∈ uargs.map CNode.nid
    · simp [hx]
    · by_cases hxf : x = fresh
      · have hxs : x ∉ synth_ids (fresh + 1) gs2 := by
          rw [hxf]
          intro hmem
          have := synth_ids_ge hmem
          omega
        have hin : x ∈ synth_ids fresh (g :: gs2) := by
          rw [hxf, show synth_ids fresh (g :: gs2) = fresh :: synth_ids (fresh + 1) gs2 from rfl]
          exact List.mem_cons_self _ _
        have h1 : ¬(x ∈ List.map CNode.nid uargs ∨ x ∈ synth_ids (fresh + 1) gs2) := by
          simp [hx, hxs]
        rw [if_neg h1, if_pos (Or.inr hin)]
        show (if x = fresh then []
          else if x ∈ List.map CNode.nid uargs then (pm x).erase fresh else pm x) = []
        rw [if_pos hxf]
      · by_cases hxs : x ∈ synth_ids (fresh + 1) gs2
        · have hin : x ∈ synth_ids fresh (g :: gs2) := by
            rw [show synth_ids fresh (g :: gs2) = fresh :: synth_ids (fresh + 1) gs2 from rfl]
            exact List.mem_cons_of_mem _ hxs
          simp [hx, hxs, hin]
        · have hnin : x ∉ synth_ids fresh (g :: gs2) := by
            rw [show synth_ids fresh (g :: gs2) = fresh :: synth_ids (fresh + 1) gs2 from rfl]
            simp [hxf, hxs]
          simp [hx, hxs, hnin, hxf]

/-- Claim C6: constructing a call with fewer supplied arguments than
declared parameters, the trailing unsupplied parameters having
function-valued defaults, synthesizes one nested call per such
position — invoking the default function over the leading shared
arguments — appends it to the argument list and registers it as a
parent of each shared argument; synthesis stops as soon as an
explicitly supplied argument is encountered; and releasing the outer
call recursively releases every argument, synthesized calls included,
removing every parent reference the construction and the outer
registration added. -/
theorem claim_C6 (reg : String → FuncDesc) (fname : String) (uargs : List CNode)
    (gs : List String) (fuel fresh : Nat)
    (hleaf : ∀ a ∈ uargs, ∃ j, a = CNode.arg j)
    (hnodup : (uargs.map CNode.nid).Nodup)
    (hbound : ∀ a ∈ uargs, a.nid < fresh)
    (hsubs : ((reg fname).params.drop (sub_arg_len (reg fname).params)).map
      ParamInfo.default_func = gs.map some)
    (hsimple : ∀ g ∈ gs, simple_desc (reg g))
    (hk : uargs.length ≤ sub_arg_len (reg fname).params) :
    mkCall reg (fuel + 2) fname uargs fresh (fun _ => []) =
      some (.call (fresh + gs.length) fname (uargs ++ synth_nodes uargs fresh gs),
        fresh + gs.length + 1,
        fun x => if x ∈ uargs.map CNode.nid then synth_ids fresh gs else []) ∧
    release (.call (fresh + gs.length) fname (uargs ++ synth_nodes uargs fresh gs))
      (fun x => if x ∈ uargs.map CNode.nid then synth_ids fresh gs ++ [fresh + gs.length]
        else if x ∈ synth_ids fresh gs then [fresh + gs.length] else [])
      = some (fun _ => []) ∧
    (∀ vargs : List CNode, sub_arg_len (reg fname).params < vargs.length →
      mkCall reg (fuel + 2) fname vargs fresh (fun _ => []) =
        some (.call fresh fname vargs, fresh + 1, fun _ => [])) := by
  refine ⟨?_, ?_, ?_⟩
  · rw [mkCall_run hnodup hsubs hsimple hk fuel fresh (fun _ => [])]
    refine congrArg some ?_
    simp only [Prod.mk.injEq, true_and]
    funext x
    by_cases hx : x ∈ uargs.map CNode.nid <;> simp [hx]
  · rw [release]
    rw [release_args_append]
    have hmemO : ∀ a ∈ uargs, (fresh + gs.length) ∈
        (fun x => if x ∈ uargs.map CNode.nid then synth_ids fresh gs ++ [fresh + gs.length]
          else if x ∈ synth_ids fresh gs then [fresh + gs.length] else []) a.nid := by
      intro a ha
      have hmm : a.nid ∈ uargs.map CNode.nid := List.mem_map_of_mem CNode.nid ha
      simp [hmm]
    rw [release_args_leaves (fresh + gs.length) uargs _ hleaf hnodup hmemO]
    show release_args (fresh + gs.length) (synth_nodes uargs fresh gs)
      (fun x => if x ∈ uargs.map CNode.nid then
          ((fun y => if y ∈ uargs.map CNode.nid then synth_ids fresh gs ++ [fresh + gs.length]
            else if y ∈ synth_ids fresh gs then [fresh + gs.length] else []) x).erase
            (fresh + gs.length)
        else (fun y => if y ∈ uargs.map CNode.nid then synth_ids fresh gs ++ [fresh + gs.length]
            else if y ∈ synth_ids fresh gs then [fresh + gs.length] else []) x)
      = some (fun _ => [])
    have hnotin : (fresh + gs.length) ∉ synth_ids fresh gs := by
      intro hmem
      have := synth_ids_lt hmem
      omega
    have hAB : (fun x => if x ∈ uargs.map CNode.nid then
          ((fun y => if y ∈ uargs.map CNode.nid then synth_ids fresh gs ++ [fresh + gs.length]
            else if y ∈ synth_ids fresh gs then [fresh + gs.length] else []) x).erase
            (fresh + gs.length)
        else (fun y => if y ∈ uargs.map CNode.nid then synth_ids fresh gs ++ [fresh + gs.length]
            else if y ∈ synth_ids fresh gs then [fresh + gs.length] else []) x) =
        (fun x => if x ∈ uargs.map CNode.nid then synth_ids fresh gs
          else if x ∈ synth_ids fresh gs then [fresh + gs.length] else []) := by
      funext x
      by_cases hx : x ∈ uargs.map CNode.nid
      · simp only [hx, if_true]
        rw [List.erase_append_right _ hnotin, List.erase_cons_head, List.append_nil]
      · simp [hx]
    rw [hAB]
    have hu2 : ∀ a ∈ uargs, (fun x => if x ∈ uargs.map CNode.nid then synth_ids fresh gs
        else if x ∈ synth_ids fresh gs then [fresh + gs.length] else []) a.nid =
        synth_ids fresh gs := by
      intro a ha
      simp [List.mem_map_of_mem CNode.nid ha]
    have hc2 : ∀ cid ∈ synth_ids fresh gs, (fun x =>
        if x ∈ uargs.map CNode.nid then synth_ids fresh gs
        else if x ∈ synth_ids fresh gs then [fresh + gs.length] else []) cid =
        [fresh + gs.length] := by
      intro cid hcid
      have hge : fresh ≤ cid := synth_ids_ge hcid
      have hnu : cid ∉ uargs.map CNode.nid := by
        intro hmem
        obtain ⟨a, ha, hax⟩ := List.mem_map.mp hmem
        have := hbound a ha
        omega
      simp [hnu, hcid]
    have hdisj2 : ∀ a ∈ uargs, ∀ cid, fresh ≤ cid → a.nid ≠ cid := by
      intro a ha cid hcid
      have := hbound a ha
      omega
    rw [release_args_synths (fresh + gs.length) uargs hleaf hnodup gs fresh _ hu2 hc2 hdisj2]
    refine congrArg some ?_
    funext x
    by_cases hx : x ∈ uargs.map CNode.nid
    · simp [hx]
    · by_cases hxs : x ∈ synth_ids fresh gs
      · simp [hx, hxs]
      · simp [hx, hxs]
  · intro vargs hlen
    exact mkCall_break hlen (fuel + 1) fresh (fun _ => [])

/-- A concrete registry for the C6 witness: `ZFN(x, fn1=MEANF,
fn2=SDF)` whose trailing two parameters default to the parameterless
sub-functions `MEANF` and `SDF`. -/
def reg_example : String → FuncDesc := fun n =>
  if n = "ZFN" then ⟨[⟨none⟩, ⟨some "MEANF"⟩, ⟨some "SDF"⟩]⟩ else ⟨[⟨none⟩]⟩

/-- Witness for C6: `ZFN(x)` synthesizes `MEANF(x)` and `SDF(x)`,
wires them as parents of `x`, and releasing the outer call empties
every parent list. -/
theorem claim_C6_witness :
    mkCall reg_example 2 "ZFN" [.arg 0] 1 (fun _ => []) =
      some (.call (1 + 2) "ZFN"
          ([CNode.arg 0] ++ synth_nodes [CNode.arg 0] 1 ["MEANF", "SDF"]),
        1 + 2 + 1,
        fun x => if x ∈ [CNode.arg 0].map CNode.nid
          then synth_ids 1 ["MEANF", "SDF"] else []) ∧
    release (.call (1 + 2) "ZFN"
        ([CNode.arg 0] ++ synth_nodes [CNode.arg 0] 1 ["MEANF", "SDF"]))
      (fun x => if x ∈ [CNode.arg 0].map CNode.nid
        then synth_ids 1 ["MEANF", "SDF"] ++ [1 + 2]
        else if x ∈ synth_ids 1 ["MEANF", "SDF"] then [1 + 2] else [])
      = some (fun _ => []) := by
  have h := claim_C6 reg_example "ZFN" [.arg 0] ["MEANF", "SDF"] 0 1
    (by
      intro a ha
      rw [List.mem_singleton] at ha
      exact ⟨0, ha⟩)
    (by decide)
    (by
      intro a ha
      rw [List.mem_singleton] at ha
      subst ha
      decide)
    (by decide)
    (by
      intro g hg
      unfold simple_desc
      fin_cases hg <;> decide)
    (by decide)
  exact ⟨h.1, h.2.1⟩
